import Mathlib

/-!
Verification of the complaint-triage core in `src/ai.py` (Nagrik-Raskshak).

The embedding models the pure decision logic of the worker:
text normalization (`clean`), keyword scoring and classification
(`keyword_score`, `predict_department`, `predict_priority` over the two
static tables `KEYWORDS` and `PRIORITY_KEYWORDS`), the deadline policy
(`set_deadline`), the overdue evaluator (`check_overdue`), and the
change-reaction handler (`on_snapshot` / `reactToChange`).

Modelling conventions:
* Timestamps (`datetime`) are modelled as `Int` seconds; `timedelta(hours=h)`
  is `h * 3600` seconds and `timedelta(days=d)` is `d * 86400` seconds.
  Every call of `datetime.now()` inside one handler run is modelled by the
  explicit parameter `now`.
* A timezone-aware datetime is a `Dt`: a naive value (the wall-clock fields,
  which is what Python comparison of naive datetimes orders by) together with
  an optional timezone annotation; `replace(tzinfo=None)` is `stripTz`.
* Python `str.lower` is modelled on the ASCII range (`A`-`Z` map to
  `a`-`z`, every other character is fixed), which is the only range that can
  survive the subsequent regex substitution of `[^a-z ]` anyway.
* Python dicts keep insertion order, so the keyword tables and the update
  payloads are association lists; `max(scores, key=scores.get)` keeps the
  first key attaining the maximal value, modelled by `maxFirst`.
* Firestore documents are `Record`s with optional fields (`.get` returning
  `None` for a missing field is `Option`); an `update({...})` payload is the
  ordered field list `List (String × Value)`.
-/

/-- Models the character class test of the regex `[^a-z ]` in `clean`
(src/ai.py line 50): a character survives iff it is a lowercase ASCII
letter or a space. -/
def goodChar (c : Char) : Bool :=
  (97 ≤ c.toNat && c.toNat ≤ 122) || c == ' '

/-- Models `str.lower` per character on the ASCII range: `A`-`Z`
(codes 65-90) shift by 32, everything else is unchanged. -/
def lowerChar (c : Char) : Char :=
  if 65 ≤ c.toNat && c.toNat ≤ 90 then Char.ofNat (c.toNat + 32) else c

/-- Models one character of `re.sub(r"[^a-z ]", " ", text)`
(src/ai.py line 50): keep characters in `[a-z ]`, replace the rest by a
space. -/
def subChar (c : Char) : Char :=
  if goodChar c then c else ' '

/-- Models `re.sub(r"\s+", " ", text)` (src/ai.py line 51) on text whose
only whitespace character is the space (which is all that survives the
previous substitution): every maximal run of spaces becomes one space.
The boolean argument records whether the previous character was part of a
space run. -/
def collapseAux : Bool → List Char → List Char
  | _, [] => []
  | prevSp, c :: rest =>
    if c = ' ' then
      if prevSp then collapseAux true rest else ' ' :: collapseAux true rest
    else
      c :: collapseAux false rest

/-- Drops leading spaces (the left half of `str.strip()` in context). -/
def dropSp (s : List Char) : List Char :=
  s.dropWhile (fun c => c = ' ')

/-- Drops trailing spaces (the right half of `str.strip()` in context). -/
def rstrip (s : List Char) : List Char :=
  (s.reverse.dropWhile (fun c => c = ' ')).reverse

/-- Models `str.strip()` (src/ai.py line 51) on text whose only whitespace
is the space character. -/
def stripSp (s : List Char) : List Char :=
  rstrip (dropSp s)

/-- Character-list body of `clean` (src/ai.py lines 48-52):
lowercase, substitute `[^a-z ]` by spaces, collapse space runs, strip. -/
def cleanList (s : List Char) : List Char :=
  stripSp (collapseAux false ((s.map lowerChar).map subChar))

/-- Models `clean` from src/ai.py lines 48-52. -/
def clean (s : String) : String :=
  ⟨cleanList s.data⟩

/-- Word splitter used to state the specification form of the normalizer:
accumulates the current word (reversed) and emits the maximal space-free
nonempty chunks of the input, in order. -/
def wordsAux : List Char → List Char → List (List Char)
  | cur, [] => if cur = [] then [] else [cur.reverse]
  | cur, c :: rest =>
    if c = ' ' then
      if cur = [] then wordsAux [] rest else cur.reverse :: wordsAux [] rest
    else
      wordsAux (c :: cur) rest

/-- Joins words with single separating spaces. -/
def joinSp : List (List Char) → List Char
  | [] => []
  | w :: ws =>
    match ws with
    | [] => w
    | _ :: _ => w ++ ' ' :: joinSp ws

/-- Modelled from the spec (§4.1): the normalized text is the lowercased
input with every character outside `[a-z ]` replaced by whitespace, runs of
whitespace collapsed to a single space and leading/trailing whitespace
trimmed — stated in canonical form as the space-free words of the
substituted text joined by single spaces. -/
def normalizeSpecList (s : List Char) : List Char :=
  joinSp (wordsAux [] ((s.map lowerChar).map subChar))

/-- String form of `normalizeSpecList`. -/
def normalize_spec (s : String) : String :=
  ⟨normalizeSpecList s.data⟩

/-- Models Python `needle in haystack` on strings: `needle` occurs as a
contiguous substring of `haystack` (the empty string occurs in every
string). -/
def isSubstr : List Char → List Char → Bool
  | needle, [] => needle.isEmpty
  | needle, h :: t => needle.isPrefixOf (h :: t) || isSubstr needle t

/-- Models `keyword_score` from src/ai.py lines 119-120:
`sum(1 for k in keywords if k in text)`. -/
def keyword_score (text : String) (keywords : List String) : Nat :=
  keywords.countP (fun k => isSubstr k.data text.data)

/-- Models the `KEYWORDS` department table from src/ai.py lines 55-98,
in dict insertion order. -/
def KEYWORDS : List (String × List String) :=
  [("Water",
    ["water", "supply", "no water", "pipeline", "pipe",
     "tap", "pressure", "tank", "leak", "leakage",
     "dirty water", "drinking water", "water shortage", "manhole", "open manhole"]),
   ("Electricity",
    ["electric", "electricity", "power", "current",
     "light", "lights", "streetlight",
     "wire", "spark", "shock",
     "transformer", "pole", "meter",
     "voltage", "power cut", "short circuit"]),
   ("Municipality",
    ["garbage", "waste", "dump", "dumping",
     "drain", "drains", "sewer", "sewage",
     "dirty", "smell", "mosquito",
     "sanitation", "toilet", "dustbin"]),
   ("PWD",
    ["road", "roads", "pothole", "potholes",
     "bridge", "flyover", "highway",
     "footpath", "divider", "culvert",
     "crack", "collapse", "asphalt",
     "construction", "speed breaker"]),
   ("Police",
    ["theft", "stolen", "robbery",
     "fight", "fighting", "quarrel",
     "harass", "harassment", "eve teasing",
     "crime", "criminal", "threat",
     "drunk", "alcohol", "drug",
     "noise", "loud", "disturbance",
     "security", "unsafe"]),
   ("Traffic",
    ["traffic", "signal", "signals",
     "parking", "jam", "congestion",
     "junction", "crossing",
     "wrong side", "accident",
     "rash driving", "speeding",
     "bus stop", "lane"])]

/-- Models the `PRIORITY_KEYWORDS` table from src/ai.py lines 100-116,
in dict insertion order. -/
def PRIORITY_KEYWORDS : List (String × List String) :=
  [("High",
    ["live wire", "electric shock", "fire", "big jam",
     "collapse", "fallen", "burst",
     "open manhole", "accident", "danger",
     "emergency", "attack", "fight", "theft"]),
   ("Medium",
    ["not working", "damaged", "leak",
     "overflow", "blocked", "frequent",
     "low pressure", "delay"]),
   ("Low",
    ["dirty", "dust", "small", "minor",
     "slow", "dim", "maintenance"])]

/-- Models Python `max(scores, key=scores.get)` over an insertion-ordered
dict, given the first entry and the remaining entries: scan left to right
and replace the current best only on a strictly larger value, so the first
entry attaining the maximum wins. -/
def maxFirst : (String × Nat) → List (String × Nat) → (String × Nat)
  | best, [] => best
  | best, p :: rest =>
    if best.2 < p.2 then maxFirst p rest else maxFirst best rest

/-- Models the score dict `{d: keyword_score(text, k) for d, k in
table.items()}` built in src/ai.py lines 123 and 128. -/
def scoreTable (text : String) (table : List (String × List String)) :
    List (String × Nat) :=
  table.map (fun ck => (ck.1, keyword_score text ck.2))

/-- The shared body of `predict_department` and `predict_priority`
(src/ai.py lines 122-130): score every category of the table and take the
dict-order-first maximal one, returning `(best, scores[best])`. -/
def classify (text : String) (table : List (String × List String)) :
    String × Nat :=
  match scoreTable text table with
  | [] => ("", 0)
  | s :: rest => maxFirst s rest

/-- Models `predict_department` from src/ai.py lines 122-125:
best department of the `KEYWORDS` table with confidence `score * 20`. -/
def predict_department (text : String) : String × Nat :=
  ((classify text KEYWORDS).1, (classify text KEYWORDS).2 * 20)

/-- Models `predict_priority` from src/ai.py lines 127-130:
best tier of the `PRIORITY_KEYWORDS` table with confidence `score * 25`. -/
def predict_priority (text : String) : String × Nat :=
  ((classify text PRIORITY_KEYWORDS).1, (classify text PRIORITY_KEYWORDS).2 * 25)

/-- Models `set_deadline` from src/ai.py lines 133-140;
`datetime.now()` is the explicit parameter `now`, in seconds. -/
def set_deadline (now : Int) (priority : String) : Int :=
  if priority = "High" then now + 24 * 3600
  else if priority = "Medium" then now + 72 * 3600
  else now + 7 * 86400

/-- A stored datetime value: the naive wall-clock instant plus an optional
timezone annotation, as delivered by Firestore. -/
structure Dt where
  naive : Int
  tz : Option Int
deriving DecidableEq

/-- Models `timestamp.replace(tzinfo=None)` (src/ai.py lines 146 and 198):
drop the timezone annotation, keep the wall-clock fields. -/
def stripTz (d : Dt) : Dt :=
  { naive := d.naive, tz := none }

/-- Models `check_overdue` from src/ai.py lines 143-147: `None` is never
overdue; otherwise strip the timezone and compare strictly against now. -/
def check_overdue (now : Int) (deadline_timestamp : Option Dt) : Bool :=
  match deadline_timestamp with
  | none => false
  | some d => decide ((stripTz d).naive < now)

/-- One entry of the `actions` audit log (the dict built in src/ai.py
lines 170-174); the Python key `"by"` is the field `actor`. -/
structure ActionEntry where
  action : String
  timestamp : Int
  actor : String
deriving DecidableEq

/-- The fields of a complaint document read by the handler; a field the
document may lack (`dict.get`) is an `Option`. -/
structure Record where
  status : Option String
  description : Option String
  actions : List ActionEntry
  deadline : Option Dt
deriving DecidableEq

/-- The change types delivered by the Firestore listener. -/
inductive ChangeType where
  | ADDED
  | MODIFIED
  | REMOVED
deriving DecidableEq

/-- One change event: type, document id, and the document snapshot. -/
structure Change where
  ctype : ChangeType
  docId : String
  data : Record
deriving DecidableEq

/-- A field value inside an `update({...})` payload. -/
inductive Value where
  | str : String → Value
  | num : Nat → Value
  | time : Int → Value
  | boolean : Bool → Value
  | actionList : List ActionEntry → Value
deriving DecidableEq

/-- Models the reaction of `on_snapshot` (src/ai.py lines 150-203) to one
change: `none` when the event is ignored, otherwise the document id and the
ordered field map passed to `.update({...})`. -/
def reactToChange (now : Int) (change : Change) : Option (String × List (String × Value)) :=
  match change.ctype with
  | ChangeType.ADDED =>
    let data := change.data
    if data.status = some "new" then
      let text := clean (data.description.getD "")
      let dep := predict_department text
      let pri := predict_priority text
      let deadline := set_deadline now pri.1
      let entry : ActionEntry :=
        { action := "AI classified as " ++ pri.1 ++ " priority for " ++ dep.1 ++ " department",
          timestamp := now,
          actor := "AI System" }
      some (change.docId,
        [("department", Value.str dep.1),
         ("departmentConfidence", Value.num dep.2),
         ("priority", Value.str pri.1),
         ("priorityConfidence", Value.num pri.2),
         ("status", Value.str "classified"),
         ("deadline", Value.time deadline),
         ("actions", Value.actionList (data.actions ++ [entry])),
         ("lastUpdated", Value.time now)])
    else none
  | ChangeType.MODIFIED =>
    let data := change.data
    if data.status ≠ some "resolved" ∧ data.status ≠ some "under_action" then
      match data.deadline with
      | some d =>
        if (stripTz d).naive < now then
          some (change.docId, [("overdue", Value.boolean true)])
        else none
      | none => none
    else none
  | ChangeType.REMOVED => none

/-- Models the loop of `on_snapshot` (src/ai.py lines 150-203): react to the
delivered changes in order, collecting the issued updates. -/
def on_snapshot (now : Int) (changes : List Change) :
    List (String × List (String × Value)) :=
  changes.filterMap (reactToChange now)

/-- Maximum score occurring in a score list (0 for the empty list);
specification-side notion for the classifier claims. -/
def maxScoreVal (scores : List (String × Nat)) : Nat :=
  scores.foldr (fun p m => max p.2 m) 0

/-- Specification-side best category: the first entry of the score list
attaining the maximal score. -/
def firstArgmax (scores : List (String × Nat)) : Option (String × Nat) :=
  scores.find? (fun p => p.2 == maxScoreVal scores)

/-- The ADDED branch of `reactToChange` on a record whose status is `"new"`,
with the update fields expressed through the classifier components. -/
theorem reactToChange_added (now : Int) (id : String) (r : Record)
    (h : r.status = some "new") :
    reactToChange now ⟨ChangeType.ADDED, id, r⟩ =
      some (id,
        [("department", Value.str (predict_department (clean (r.description.getD ""))).1),
         ("departmentConfidence", Value.num (predict_department (clean (r.description.getD ""))).2),
         ("priority", Value.str (predict_priority (clean (r.description.getD ""))).1),
         ("priorityConfidence", Value.num (predict_priority (clean (r.description.getD ""))).2),
         ("status", Value.str "classified"),
         ("deadline", Value.time (set_deadline now (predict_priority (clean (r.description.getD ""))).1)),
         ("actions", Value.actionList (r.actions ++
           [⟨"AI classified as " ++ (predict_priority (clean (r.description.getD ""))).1 ++
              " priority for " ++ (predict_department (clean (r.description.getD ""))).1 ++ " department",
             now, "AI System"⟩])),
         ("lastUpdated", Value.time now)]) := by
  simp only [reactToChange, h, if_pos]

/-- The MODIFIED branch of `reactToChange`, in closed form. -/
theorem reactToChange_modified (now : Int) (id : String) (r : Record) :
    reactToChange now ⟨ChangeType.MODIFIED, id, r⟩ =
      if r.status ≠ some "resolved" ∧ r.status ≠ some "under_action" then
        match r.deadline with
        | some d =>
          if (stripTz d).naive < now then
            some (id, [("overdue", Value.boolean true)])
          else none
        | none => none
      else none := rfl

/-- C1: an "added" change event on a record with status `"new"` and
description `"open manhole near the bus stop, very dangerous"` issues one
update setting department to `"Water"` (the winner under the fixed table,
with two hits `manhole` and `open manhole` against one Traffic hit
`bus stop`), priority `"High"`, status `"classified"`, and an actions array
extending the previous one by exactly one new entry. -/
theorem added_new_manhole_classification :
    ∀ (now : Int) (acts : List ActionEntry) (dl : Option Dt) (id : String),
    reactToChange now
        ⟨ChangeType.ADDED, id,
         ⟨some "new", some "open manhole near the bus stop, very dangerous", acts, dl⟩⟩ =
      some (id,
        [("department", Value.str "Water"),
         ("departmentConfidence", Value.num 40),
         ("priority", Value.str "High"),
         ("priorityConfidence", Value.num 50),
         ("status", Value.str "classified"),
         ("deadline", Value.time (now + 24 * 3600)),
         ("actions", Value.actionList (acts ++
           [⟨"AI classified as High priority for Water department", now, "AI System"⟩])),
         ("lastUpdated", Value.time now)]) := by
  intro now acts dl id
  have h1 : predict_department (clean "open manhole near the bus stop, very dangerous") =
      ("Water", 40) := by decide
  have h2 : predict_priority (clean "open manhole near the bus stop, very dangerous") =
      ("High", 50) := by decide
  rw [reactToChange_added now id _ rfl]
  simp only [Option.getD_some, h1, h2]
  rfl

/-- C10: an "added" event on a status-`"new"` record with no description
field never raises: the text defaults to empty, every score is 0, the
zero-score tie-break selects the first category of each table — department
`"Water"` with confidence 0, priority `"High"` with confidence 0 — and the
deadline is now plus 24 hours. -/
theorem added_missing_description_defaults :
    ∀ (now : Int) (acts : List ActionEntry) (dl : Option Dt) (id : String),
    reactToChange now ⟨ChangeType.ADDED, id, ⟨some "new", none, acts, dl⟩⟩ =
      some (id,
        [("department", Value.str "Water"),
         ("departmentConfidence", Value.num 0),
         ("priority", Value.str "High"),
         ("priorityConfidence", Value.num 0),
         ("status", Value.str "classified"),
         ("deadline", Value.time (now + 24 * 3600)),
         ("actions", Value.actionList (acts ++
           [⟨"AI classified as High priority for Water department", now, "AI System"⟩])),
         ("lastUpdated", Value.time now)]) := by
  intro now acts dl id
  have h1 : predict_department (clean "") = ("Water", 0) := by decide
  have h2 : predict_priority (clean "") = ("High", 0) := by decide
  rw [reactToChange_added now id _ rfl]
  simp only [Option.getD_none, h1, h2]
  rfl

/-- C5: an "added" event whose record status is not `"new"` issues no update
at all, so a complaint is classified at most once even under redelivery. -/
theorem added_not_new_no_update :
    ∀ (now : Int) (id : String) (r : Record),
    r.status ≠ some "new" → reactToChange now ⟨ChangeType.ADDED, id, r⟩ = none := by
  intro now id r h
  simp only [reactToChange, if_neg h]

/-- Witness for C5 at a concrete already-classified record. -/
theorem added_not_new_no_update_witness :
    reactToChange 0
      ⟨ChangeType.ADDED, "c2",
       ⟨some "classified", some "open manhole", [], none⟩⟩ = none :=
  added_not_new_no_update 0 "c2"
    ⟨some "classified", some "open manhole", [], none⟩ (by decide)

/-- C3: the deadline policy maps High to now + 24 hours, Medium to
now + 72 hours, and Low or any other priority value to now + 7 days. -/
theorem set_deadline_policy :
    ∀ T : Int,
    set_deadline T "High" = T + 24 * 3600 ∧
    set_deadline T "Medium" = T + 72 * 3600 ∧
    ∀ p : String, p ≠ "High" → p ≠ "Medium" → set_deadline T p = T + 7 * 86400 := by
  intro T
  refine ⟨rfl, rfl, ?_⟩
  intro p h1 h2
  simp [set_deadline, h1, h2]

/-- Witness for C3 at T = 0 and the fallback priority `"Low"`. -/
theorem set_deadline_policy_witness :
    set_deadline 0 "Low" = 0 + 7 * 86400 :=
  (set_deadline_policy 0).2.2 "Low" (by decide) (by decide)

/-- C4: the overdue evaluator returns false on an absent deadline, and
otherwise — after stripping the timezone annotation — returns true exactly
when now is strictly past the deadline; in particular a deadline one hour in
the past is overdue and one hour in the future is not. -/
theorem check_overdue_policy :
    ∀ now : Int,
    check_overdue now none = false ∧
    (∀ d : Dt, (check_overdue now (some d) = true ↔ (stripTz d).naive < now)) ∧
    (∀ tz : Option Int,
      check_overdue now (some ⟨now - 3600, tz⟩) = true ∧
      check_overdue now (some ⟨now + 3600, tz⟩) = false) := by
  intro now
  refine ⟨rfl, fun d => by simp [check_overdue], fun tz => ⟨?_, ?_⟩⟩
  · simp only [check_overdue, stripTz, decide_eq_true_eq]
    omega
  · simp only [check_overdue, stripTz, decide_eq_false_iff_not, not_lt]
    omega

/-- C6: a "modified" event issues an update only when the record's status is
neither `"resolved"` nor `"under_action"` and a deadline is present and has
passed; the only update it can issue sets overdue to true (never false), and
an `"under_action"` record with an expired deadline produces no update. -/
theorem modified_overdue_guard :
    ∀ (now : Int) (id : String) (r : Record),
    ((r.status = some "resolved" ∨ r.status = some "under_action") →
        reactToChange now ⟨ChangeType.MODIFIED, id, r⟩ = none) ∧
    (∀ out, reactToChange now ⟨ChangeType.MODIFIED, id, r⟩ = some out →
        out = (id, [("overdue", Value.boolean true)]) ∧
        r.status ≠ some "resolved" ∧ r.status ≠ some "under_action" ∧
        ∃ d, r.deadline = some d ∧ (stripTz d).naive < now) ∧
    (∀ d, r.deadline = some d → (stripTz d).naive < now →
        r.status = some "under_action" →
        reactToChange now ⟨ChangeType.MODIFIED, id, r⟩ = none) := by
  intro now id r
  rw [reactToChange_modified]
  refine ⟨?_, ?_, ?_⟩
  · intro h
    rw [if_neg]
    intro hc
    rcases h with h | h
    · exact hc.1 h
    · exact hc.2 h
  · intro out hout
    split at hout
    next hs =>
      split at hout
      next d hd =>
        split at hout
        next ht =>
          cases hout
          exact ⟨rfl, hs.1, hs.2, d, hd, ht⟩
        next => cases hout
      next => cases hout
    next => cases hout
  · intro d hd ht hs
    rw [if_neg]
    intro hc
    exact hc.2 hs

/-- Witness for C6: an `"under_action"` record whose deadline expired still
produces no update. -/
theorem modified_overdue_guard_witness :
    reactToChange 5
      ⟨ChangeType.MODIFIED, "c3",
       ⟨some "under_action", none, [], some ⟨0, none⟩⟩⟩ = none :=
  (modified_overdue_guard 5 "c3"
    ⟨some "under_action", none, [], some ⟨0, none⟩⟩).2.2
    ⟨0, none⟩ rfl (by decide) rfl

/-- C9 counterexample: it is not true that every core-issued update carries a
`lastUpdated` field — the overdue update issued for a modified record with an
expired deadline is exactly `{"overdue": true}` and has no `lastUpdated`. -/
theorem overdue_update_lacks_lastUpdated_cex :
    ¬ (∀ (now : Int) (changes : List Change) (upd : String × List (String × Value)),
        upd ∈ on_snapshot now changes → "lastUpdated" ∈ upd.2.map Prod.fst) := by
  intro h
  have hmem := h 1
      [⟨ChangeType.MODIFIED, "c1", ⟨some "new", none, [], some ⟨0, none⟩⟩⟩]
      ("c1", [("overdue", Value.boolean true)]) (by decide)
  exact absurd hmem (by decide)

/-- C9 (amended): the classification update issued on an "added" event
includes a refreshed `lastUpdated` timestamp, while the overdue update
issued on a "modified" event consists of the single field
`overdue = true` and carries no `lastUpdated`. -/
theorem core_update_lastUpdated_amended :
    ∀ (now : Int) (change : Change) (id : String) (fields : List (String × Value)),
    reactToChange now change = some (id, fields) →
    (change.ctype = ChangeType.ADDED → ("lastUpdated", Value.time now) ∈ fields) ∧
    (change.ctype = ChangeType.MODIFIED → fields = [("overdue", Value.boolean true)]) := by
  intro now change id fields h
  obtain ⟨ct, cid, r⟩ := change
  cases ct with
  | ADDED =>
    refine ⟨fun _ => ?_, fun hc => nomatch hc⟩
    simp only [reactToChange] at h
    split at h
    next =>
      cases h
      simp
    next => cases h
  | MODIFIED =>
    refine ⟨fun hc => (nomatch hc), fun _ => ?_⟩
    simp only [reactToChange] at h
    split at h
    next =>
      split at h
      next d hd =>
        split at h
        next => cases h; rfl
        next => cases h
      next => cases h
    next => cases h
  | REMOVED =>
    simp only [reactToChange] at h
    cases h

/-- Witness for the amended C9: a concrete classification update carries
`lastUpdated`, via the amended theorem at an explicit input. -/
theorem core_update_lastUpdated_amended_witness :
    ("lastUpdated", Value.time 1) ∈
      [("department", Value.str "Water"),
       ("departmentConfidence", Value.num 0),
       ("priority", Value.str "High"),
       ("priorityConfidence", Value.num 0),
       ("status", Value.str "classified"),
       ("deadline", Value.time 86401),
       ("actions", Value.actionList
         [⟨"AI classified as High priority for Water department", 1, "AI System"⟩]),
       ("lastUpdated", Value.time 1)] :=
  (core_update_lastUpdated_amended 1
    ⟨ChangeType.ADDED, "c4", ⟨some "new", none, [], none⟩⟩ "c4"
    [("department", Value.str "Water"),
     ("departmentConfidence", Value.num 0),
     ("priority", Value.str "High"),
     ("priorityConfidence", Value.num 0),
     ("status", Value.str "classified"),
     ("deadline", Value.time 86401),
     ("actions", Value.actionList
       [⟨"AI classified as High priority for Water department", 1, "AI System"⟩]),
     ("lastUpdated", Value.time 1)] (by decide)).1 rfl

/-- Unfolding of `maxScoreVal` on a cons. -/
theorem maxScoreVal_cons (p : String × Nat) (l : List (String × Nat)) :
    maxScoreVal (p :: l) = max p.2 (maxScoreVal l) := rfl

/-- The left fold of Python `max` over scores picks exactly the first list
entry whose value equals the maximal value. -/
theorem find?_maxFirst :
    ∀ (l : List (String × Nat)) (x : String × Nat),
    (x :: l).find? (fun p => p.2 == max x.2 (maxScoreVal l)) = some (maxFirst x l) := by
  intro l
  induction l with
  | nil =>
    intro x
    rw [show maxScoreVal ([] : List (String × Nat)) = 0 from rfl, Nat.max_zero]
    rw [@List.find?_cons_of_pos (String × Nat) (fun p => p.2 == x.2) x [] (by simp)]
    rfl
  | cons p r ih =>
    intro x
    rw [maxScoreVal_cons, maxFirst]
    by_cases hxp : x.2 < p.2
    · rw [if_pos hxp]
      have hN : max x.2 (max p.2 (maxScoreVal r)) = max p.2 (maxScoreVal r) := by omega
      rw [hN]
      rw [@List.find?_cons_of_neg (String × Nat)
        (fun q => q.2 == max p.2 (maxScoreVal r)) x (p :: r)
        (by simp only [beq_iff_eq]; omega)]
      exact ih p
    · rw [if_neg hxp]
      have hN : max x.2 (max p.2 (maxScoreVal r)) = max x.2 (maxScoreVal r) := by omega
      rw [hN]
      have hr := ih x
      by_cases hx : x.2 = max x.2 (maxScoreVal r)
      · rw [@List.find?_cons_of_pos (String × Nat)
          (fun q => q.2 == max x.2 (maxScoreVal r)) x (p :: r)
          (by simp only [beq_iff_eq]; exact hx)]
        rw [@List.find?_cons_of_pos (String × Nat)
          (fun q => q.2 == max x.2 (maxScoreVal r)) x r
          (by simp only [beq_iff_eq]; exact hx)] at hr
        exact hr
      · rw [@List.find?_cons_of_neg (String × Nat)
          (fun q => q.2 == max x.2 (maxScoreVal r)) x (p :: r)
          (by simp only [beq_iff_eq]; exact hx)]
        rw [@List.find?_cons_of_neg (String × Nat)
          (fun q => q.2 == max x.2 (maxScoreVal r)) x r
          (by simp only [beq_iff_eq]; exact hx)] at hr
        rw [@List.find?_cons_of_neg (String × Nat)
          (fun q => q.2 == max x.2 (maxScoreVal r)) p r
          (by simp only [beq_iff_eq]; omega)]
        exact hr

/-- On a nonempty table, `classify` returns exactly the first maximal-score
entry of the score list. -/
theorem classify_eq_firstArgmax :
    ∀ (text : String) (table : List (String × List String)), table ≠ [] →
    firstArgmax (scoreTable text table) = some (classify text table) := by
  intro text table h
  match table with
  | [] => exact absurd rfl h
  | c :: rest =>
    exact find?_maxFirst (scoreTable text rest) (c.1, keyword_score text c.2)

/-- C2: the classifier scores each category by the number of its keyword
phrases occurring as substrings of the text (each keyword counted at most
once, being counted per keyword-list entry), returns the first category of
the table's iteration order attaining the maximal score, multiplies the
winning score by 20 (department) respectively 25 (priority) to obtain the
confidence, and this confidence is not capped at 100: a concrete input
reaches 140. -/
theorem classifier_score_best_confidence :
    (∀ (text : String) (ks : List String),
      keyword_score text ks =
        (ks.filter (fun k => isSubstr k.data text.data)).length) ∧
    (∀ (text : String) (table : List (String × List String)), table ≠ [] →
      firstArgmax (scoreTable text table) = some (classify text table)) ∧
    (∀ text : String, predict_department text =
      ((classify text KEYWORDS).1, (classify text KEYWORDS).2 * 20)) ∧
    (∀ text : String, predict_priority text =
      ((classify text PRIORITY_KEYWORDS).1, (classify text PRIORITY_KEYWORDS).2 * 25)) ∧
    100 < (predict_department "water supply pipeline tap pressure tank").2 := by
  refine ⟨?_, classify_eq_firstArgmax, fun _ => rfl, fun _ => rfl, by decide⟩
  intro text ks
  exact List.countP_eq_length_filter _ _

/-- Witness for C2 on the department table with a concrete text. -/
theorem classifier_score_best_confidence_witness :
    firstArgmax (scoreTable "water leak" KEYWORDS) =
      some (classify "water leak" KEYWORDS) :=
  classifier_score_best_confidence.2.1 "water leak" KEYWORDS (by decide)

/-- Dropping leading spaces of a space-headed list skips the head. -/
theorem dropSp_cons_space (r : List Char) : dropSp (' ' :: r) = dropSp r :=
  List.dropWhile_cons_of_pos (by simp)

/-- Dropping leading spaces of a list headed by a non-space is the list. -/
theorem dropSp_cons_char (r : List Char) (c : Char) (h : c ≠ ' ') :
    dropSp (c :: r) = c :: r :=
  List.dropWhile_cons_of_neg (by simp [h])

/-- A trailing space is removed by `rstrip`. -/
theorem rstrip_append_space (l : List Char) : rstrip (l ++ [' ']) = rstrip l := by
  simp [rstrip, List.reverse_append, List.dropWhile_cons_of_pos]

/-- The function `rstrip` fixes a reversed list whose first element is not a space. -/
theorem rstrip_reverse_cons (c : Char) (cs : List Char) (h : c ≠ ' ') :
    rstrip ((c :: cs).reverse) = (c :: cs).reverse := by
  simp [rstrip, List.dropWhile_cons_of_neg, h]

/-- Inside a space run, `collapseAux` drops further spaces. -/
theorem collapseAux_cons_space_true (r : List Char) :
    collapseAux true (' ' :: r) = collapseAux true r := rfl

/-- At the start of a space run, `collapseAux` emits one space. -/
theorem collapseAux_cons_space_false (r : List Char) :
    collapseAux false (' ' :: r) = ' ' :: collapseAux true r := rfl

/-- A non-space character is copied by `collapseAux`. -/
theorem collapseAux_cons_char (b : Bool) (r : List Char) (c : Char) (h : c ≠ ' ') :
    collapseAux b (c :: r) = c :: collapseAux false r := by
  cases b <;> simp [collapseAux, h]

/-- Inside a space run, leading spaces of the remaining input are invisible
to `collapseAux`. -/
theorem collapseAux_true_dropSp : ∀ r : List Char,
    collapseAux true (dropSp r) = collapseAux true r := by
  intro r
  induction r with
  | nil => rfl
  | cons d r ih =>
    by_cases hd : d = ' '
    · subst hd
      rw [dropSp_cons_space, ih, collapseAux_cons_space_true]
    · rw [dropSp_cons_char r d hd]

/-- With a nonempty accumulator, `wordsAux` flushes it at the end. -/
theorem wordsAux_nil_eq (cur : List Char) (h : cur ≠ []) :
    wordsAux cur [] = [cur.reverse] := by
  simp [wordsAux, h]

/-- With a nonempty accumulator, `wordsAux` flushes it at a space. -/
theorem wordsAux_cons_space (cur r : List Char) (h : cur ≠ []) :
    wordsAux cur (' ' :: r) = cur.reverse :: wordsAux [] r := by
  simp [wordsAux, h]

/-- A non-space character is pushed onto the accumulator by `wordsAux`. -/
theorem wordsAux_cons_char (cur r : List Char) (c : Char) (h : c ≠ ' ') :
    wordsAux cur (c :: r) = wordsAux (c :: cur) r := by
  simp [wordsAux, h]

/-- With an empty accumulator, leading spaces do not affect `wordsAux`. -/
theorem wordsAux_nil_dropSp : ∀ r : List Char,
    wordsAux [] (dropSp r) = wordsAux [] r := by
  intro r
  induction r with
  | nil => rfl
  | cons d r ih =>
    by_cases hd : d = ' '
    · subst hd
      rw [dropSp_cons_space, ih]
      rfl
    · rw [dropSp_cons_char r d hd]

/-- With a nonempty accumulator, `wordsAux` returns a nonempty word list. -/
theorem wordsAux_ne_nil : ∀ (s cur : List Char), cur ≠ [] → wordsAux cur s ≠ [] := by
  intro s
  induction s with
  | nil =>
    intro cur h
    rw [wordsAux_nil_eq cur h]
    simp
  | cons c r ih =>
    intro cur h
    by_cases hc : c = ' '
    · subst hc
      rw [wordsAux_cons_space cur r h]
      simp
    · rw [wordsAux_cons_char cur r c hc]
      exact ih (c :: cur) (by simp)

/-- Extending the accumulator of `wordsAux` prepends to the first emitted
word only. -/
theorem wordsAux_append_acc :
    ∀ (s a b : List Char), a ≠ [] →
    wordsAux (a ++ b) s = (wordsAux a s).modifyHead (fun w => b.reverse ++ w) := by
  intro s
  induction s with
  | nil =>
    intro a b ha
    have hab : a ++ b ≠ [] := by simp [ha]
    rw [wordsAux_nil_eq _ ha, wordsAux_nil_eq _ hab, List.modifyHead_cons,
      List.reverse_append]
  | cons c r ih =>
    intro a b ha
    by_cases hc : c = ' '
    · subst hc
      have hab : a ++ b ≠ [] := by simp [ha]
      rw [wordsAux_cons_space _ _ ha, wordsAux_cons_space _ _ hab,
        List.modifyHead_cons, List.reverse_append]
    · rw [wordsAux_cons_char _ _ _ hc, wordsAux_cons_char _ _ _ hc,
        show c :: (a ++ b) = (c :: a) ++ b from rfl,
        ih (c :: a) b (by simp)]

/-- On a cons with a nonempty tail, `joinSp` inserts one space. -/
theorem joinSp_cons_of_ne (w : List Char) (ws : List (List Char)) (h : ws ≠ []) :
    joinSp (w :: ws) = w ++ ' ' :: joinSp ws := by
  match ws with
  | [] => exact absurd rfl h
  | x :: r => rfl

/-- Prepending onto the first word factors out of `joinSp`. -/
theorem joinSp_modifyHead (p : List Char) (ws : List (List Char)) (h : ws ≠ []) :
    joinSp (ws.modifyHead (fun w => p ++ w)) = p ++ joinSp ws := by
  match ws with
  | [] => exact absurd rfl h
  | [w] => rfl
  | w :: x :: r =>
    rw [List.modifyHead_cons, joinSp_cons_of_ne (p ++ w) (x :: r) (by simp),
      joinSp_cons_of_ne w (x :: r) (by simp)]
    simp

/-- The head of a space-stripped list is not a space. -/
theorem dropSp_head_ne_space : ∀ (s : List Char) (c : Char) (t : List Char),
    dropSp s = c :: t → c ≠ ' ' := by
  intro s
  induction s with
  | nil =>
    intro c t h
    cases h
  | cons d r ih =>
    intro c t h
    by_cases hd : d = ' '
    · subst hd
      rw [dropSp_cons_space] at h
      exact ih c t h
    · rw [dropSp_cons_char r d hd] at h
      cases h
      exact hd

/-- Base case of the core correspondence: an exhausted input flushes the
accumulated word on both sides. -/
theorem collapse_words_nil (c : Char) (cs : List Char) (hc : c ≠ ' ') :
    rstrip ((c :: cs).reverse ++ collapseAux false []) =
      joinSp (wordsAux (c :: cs) []) := by
  rw [show collapseAux false [] = [] from rfl, List.append_nil,
    rstrip_reverse_cons c cs hc, wordsAux_nil_eq _ (by simp)]
  rfl

/-- Core correspondence while inside a word: right-stripping the collapsed
remainder appended to the emitted word prefix equals joining the words with
the pending accumulator. -/
theorem collapse_words_core :
    ∀ (n : Nat) (s : List Char) (c : Char) (cs : List Char),
    s.length ≤ n → c ≠ ' ' →
    rstrip ((c :: cs).reverse ++ collapseAux false s) =
      joinSp (wordsAux (c :: cs) s) := by
  intro n
  induction n with
  | zero =>
    intro s c cs hlen hc
    match s with
    | [] => exact collapse_words_nil c cs hc
    | d :: r => simp at hlen
  | succ n ih =>
    intro s c cs hlen hc
    match s with
    | [] => exact collapse_words_nil c cs hc
    | d :: r =>
      by_cases hd : d = ' '
      · subst hd
        rw [collapseAux_cons_space_false, wordsAux_cons_space _ _ (by simp),
          ← collapseAux_true_dropSp r, ← wordsAux_nil_dropSp r]
        cases hds : dropSp r with
        | nil =>
          rw [show collapseAux true [] = [] from rfl,
            show wordsAux ([] : List Char) [] = [] from rfl,
            rstrip_append_space, rstrip_reverse_cons c cs hc]
          rfl
        | cons e r2 =>
          have he : e ≠ ' ' := dropSp_head_ne_space r e r2 hds
          rw [collapseAux_cons_char true r2 e he, wordsAux_cons_char _ r2 e he]
          have hshape : (c :: cs).reverse ++ ' ' :: e :: collapseAux false r2
              = (e :: ' ' :: c :: cs).reverse ++ collapseAux false r2 := by
            simp
          rw [hshape]
          have hr2len : r2.length ≤ n := by
            have h1 : (dropSp r).length ≤ r.length := (List.dropWhile_sublist _).length_le
            rw [hds] at h1
            simp only [List.length_cons] at h1 hlen
            omega
          rw [ih r2 e (' ' :: c :: cs) hr2len he]
          have hsplit : wordsAux (e :: ' ' :: c :: cs) r2
              = (wordsAux [e] r2).modifyHead (fun w => (' ' :: c :: cs).reverse ++ w) :=
            wordsAux_append_acc r2 [e] (' ' :: c :: cs) (by simp)
          rw [hsplit,
            joinSp_modifyHead _ _ (wordsAux_ne_nil r2 [e] (by simp)),
            joinSp_cons_of_ne _ _ (wordsAux_ne_nil r2 [e] (by simp))]
          simp
      · rw [collapseAux_cons_char false r d hd, wordsAux_cons_char _ r d hd,
          show (c :: cs).reverse ++ d :: collapseAux false r
            = (d :: c :: cs).reverse ++ collapseAux false r from by simp]
        exact ih r d (c :: cs) (by simp only [List.length_cons] at hlen; omega) hd

/-- A leading space does not change the stripped value. -/
theorem stripSp_cons_space (x : List Char) : stripSp (' ' :: x) = stripSp x := by
  simp [stripSp, dropSp_cons_space]

/-- Up to stripping, the collapse state flag is irrelevant. -/
theorem stripSp_collapseAux_true (r : List Char) :
    stripSp (collapseAux true r) = stripSp (collapseAux false r) := by
  cases r with
  | nil => rfl
  | cons d r2 =>
    by_cases hd : d = ' '
    · subst hd
      rw [collapseAux_cons_space_true, collapseAux_cons_space_false, stripSp_cons_space]
    · rw [collapseAux_cons_char true r2 d hd, collapseAux_cons_char false r2 d hd]

/-- The two regex passes plus strip compute exactly the single-space join of
the space-free words of the input. -/
theorem collapse_words : ∀ s : List Char,
    stripSp (collapseAux false s) = joinSp (wordsAux [] s) := by
  intro s
  induction s with
  | nil => rfl
  | cons d r ih =>
    by_cases hd : d = ' '
    · subst hd
      rw [collapseAux_cons_space_false, stripSp_cons_space, stripSp_collapseAux_true, ih]
      rfl
    · rw [collapseAux_cons_char false r d hd, wordsAux_cons_char _ r d hd,
        show stripSp (d :: collapseAux false r) = rstrip (d :: collapseAux false r) from by
          simp [stripSp, dropSp_cons_char _ d hd]]
      exact collapse_words_core r.length r d [] le_rfl hd

/-- C7: the normalizer lowercases, replaces every character outside
`[a-z ]` by whitespace, collapses whitespace runs to single spaces and trims
the ends — stated as extensional equality with the specification form
`normalize_spec` — and it is total on every string, with empty input giving
the empty string and `normalize("Water LEAK!!") = "water leak"`. -/
theorem clean_meets_normalizer_spec :
    (∀ s : String, clean s = normalize_spec s) ∧
    clean "" = "" ∧
    clean "Water LEAK!!" = "water leak" := by
  refine ⟨fun s => congrArg String.mk ?_, rfl, by decide⟩
  exact collapse_words ((s.data.map lowerChar).map subChar)

/-- A space is in the character class kept by the substitution. -/
theorem goodChar_space : goodChar ' ' = true := by decide

/-- The modelled `str.lower` fixes every character of the kept class. -/
theorem lowerChar_fixed (c : Char) (h : goodChar c = true) : lowerChar c = c := by
  have h' : (97 ≤ c.toNat ∧ c.toNat ≤ 122) ∨ c = ' ' := by
    simpa [goodChar, Bool.or_eq_true, Bool.and_eq_true, decide_eq_true_iff,
      beq_iff_eq] using h
  have hno : ¬ ((65 ≤ c.toNat && c.toNat ≤ 90) = true) := by
    simp only [Bool.and_eq_true, decide_eq_true_iff, not_and, not_le]
    rcases h' with ⟨h1, _⟩ | rfl
    · intro _
      omega
    · intro hx
      exact absurd hx (by decide)
  simp [lowerChar, hno]

/-- The substitution fixes every character of the kept class. -/
theorem subChar_fixed (c : Char) (h : goodChar c = true) : subChar c = c := by
  simp [subChar, h]

/-- The substitution only outputs characters of the kept class. -/
theorem goodChar_subChar (c : Char) : goodChar (subChar c) = true := by
  unfold subChar
  split
  next h => exact h
  next => decide

/-- Characters produced by the collapse pass come from its input or are
spaces. -/
theorem mem_collapseAux : ∀ (b : Bool) (l : List Char) (c : Char),
    c ∈ collapseAux b l → c ∈ l ∨ c = ' ' := by
  intro b l
  induction l generalizing b with
  | nil =>
    intro c h
    cases h
  | cons d r ih =>
    intro c h
    by_cases hd : d = ' '
    · subst hd
      cases b with
      | true =>
        rw [collapseAux_cons_space_true] at h
        rcases ih true c h with h1 | h1
        · exact Or.inl (List.mem_cons_of_mem _ h1)
        · exact Or.inr h1
      | false =>
        rw [collapseAux_cons_space_false] at h
        rcases List.mem_cons.mp h with rfl | h1
        · exact Or.inr rfl
        · rcases ih true c h1 with h2 | h2
          · exact Or.inl (List.mem_cons_of_mem _ h2)
          · exact Or.inr h2
    · rw [collapseAux_cons_char b r d hd] at h
      rcases List.mem_cons.mp h with rfl | h1
      · exact Or.inl (List.mem_cons_self _ _)
      · rcases ih false c h1 with h2 | h2
        · exact Or.inl (List.mem_cons_of_mem _ h2)
        · exact Or.inr h2

/-- Stripping only removes characters. -/
theorem mem_stripSp (l : List Char) (c : Char) (h : c ∈ stripSp l) : c ∈ l := by
  unfold stripSp rstrip dropSp at h
  have h1 := List.mem_reverse.mp h
  have h2 := (List.dropWhile_sublist _).subset h1
  have h3 := List.mem_reverse.mp h2
  exact (List.dropWhile_sublist _).subset h3

/-- Every character of a cleaned text lies in the kept class `[a-z ]`. -/
theorem good_mem_cleanList (s : List Char) (c : Char) (h : c ∈ cleanList s) :
    goodChar c = true := by
  unfold cleanList at h
  have h1 := mem_stripSp _ _ h
  rcases mem_collapseAux false _ c h1 with h2 | rfl
  · rcases List.mem_map.mp h2 with ⟨a, _, rfl⟩
    exact goodChar_subChar a
  · decide

/-- A map whose function fixes every element of the list is the identity. -/
theorem map_fixed_of_mem : ∀ (l : List Char) (f : Char → Char),
    (∀ c ∈ l, f c = c) → l.map f = l := by
  intro l f
  induction l with
  | nil =>
    intro _
    rfl
  | cons d r ih =>
    intro h
    rw [List.map_cons, h d (List.mem_cons_self _ _),
      ih (fun c hc => h c (List.mem_cons_of_mem _ hc))]

/-- Every word emitted by `wordsAux` is nonempty. -/
theorem wordsAux_mem_ne_nil : ∀ (s cur w : List Char),
    w ∈ wordsAux cur s → w ≠ [] := by
  intro s
  induction s with
  | nil =>
    intro cur w hw
    by_cases hcur : cur = []
    · subst hcur
      simp [wordsAux] at hw
    · rw [wordsAux_nil_eq _ hcur] at hw
      rcases List.mem_singleton.mp hw with rfl
      simpa using hcur
  | cons c r ih =>
    intro cur w hw
    by_cases hc : c = ' '
    · subst hc
      by_cases hcur : cur = []
      · subst hcur
        rw [show wordsAux ([] : List Char) (' ' :: r) = wordsAux [] r from rfl] at hw
        exact ih [] w hw
      · rw [wordsAux_cons_space _ _ hcur] at hw
        rcases List.mem_cons.mp hw with rfl | h1
        · simpa using hcur
        · exact ih [] w h1
    · rw [wordsAux_cons_char _ _ _ hc] at hw
      exact ih (c :: cur) w hw

/-- Words emitted by `wordsAux` from a space-free accumulator contain no
space. -/
theorem wordsAux_mem_no_space : ∀ (s cur w : List Char),
    (∀ c ∈ cur, c ≠ ' ') → w ∈ wordsAux cur s → ∀ c ∈ w, c ≠ ' ' := by
  intro s
  induction s with
  | nil =>
    intro cur w hcur hw
    by_cases hc : cur = []
    · subst hc
      simp [wordsAux] at hw
    · rw [wordsAux_nil_eq _ hc] at hw
      rcases List.mem_singleton.mp hw with rfl
      intro c hcw
      exact hcur c (List.mem_reverse.mp hcw)
  | cons d r ih =>
    intro cur w hcur hw
    by_cases hd : d = ' '
    · subst hd
      by_cases hc : cur = []
      · subst hc
        rw [show wordsAux ([] : List Char) (' ' :: r) = wordsAux [] r from rfl] at hw
        exact ih [] w (by simp) hw
      · rw [wordsAux_cons_space _ _ hc] at hw
        rcases List.mem_cons.mp hw with rfl | h1
        · intro c hcw
          exact hcur c (List.mem_reverse.mp hcw)
        · exact ih [] w (by simp) h1
    · rw [wordsAux_cons_char _ _ _ hd] at hw
      refine ih (d :: cur) w ?_ hw
      intro c hcc
      rcases List.mem_cons.mp hcc with rfl | h1
      · exact hd
      · exact hcur c h1

/-- A space-free chunk is consumed into the accumulator by `wordsAux`. -/
theorem wordsAux_of_word : ∀ (w : List Char), (∀ c ∈ w, c ≠ ' ') →
    ∀ (cur rest : List Char), wordsAux cur (w ++ rest) = wordsAux (w.reverse ++ cur) rest := by
  intro w
  induction w with
  | nil =>
    intro _ cur rest
    rfl
  | cons c w2 ih =>
    intro hw cur rest
    rw [List.cons_append, wordsAux_cons_char _ _ _ (hw c (List.mem_cons_self _ _)),
      ih (fun x hx => hw x (List.mem_cons_of_mem _ hx)) (c :: cur) rest]
    congr 1
    simp

/-- Splitting the single-space join of nonempty space-free words recovers
exactly those words. -/
theorem wordsAux_joinSp : ∀ ws : List (List Char),
    (∀ w ∈ ws, w ≠ [] ∧ (∀ c ∈ w, c ≠ ' ')) →
    wordsAux [] (joinSp ws) = ws := by
  intro ws
  induction ws with
  | nil =>
    intro _
    rfl
  | cons w ws2 ih =>
    intro h
    rcases h w (List.mem_cons_self _ _) with ⟨hne, hns⟩
    cases ws2 with
    | nil =>
      have h1 := wordsAux_of_word w hns [] []
      rw [List.append_nil, List.append_nil] at h1
      rw [show joinSp [w] = w from rfl, h1, wordsAux_nil_eq _ (by simpa using hne)]
      simp
    | cons x ws3 =>
      rw [joinSp_cons_of_ne _ _ (by simp)]
      have h1 := wordsAux_of_word w hns [] (' ' :: joinSp (x :: ws3))
      rw [List.append_nil] at h1
      rw [h1, wordsAux_cons_space _ _ (by simpa using hne), List.reverse_reverse,
        ih (fun u hu => h u (List.mem_cons_of_mem _ hu))]

/-- The character-list normalizer is idempotent. -/
theorem cleanList_idem (t : List Char) : cleanList (cleanList t) = cleanList t := by
  have hgood : ∀ c ∈ cleanList t, goodChar c = true :=
    fun c hc => good_mem_cleanList t c hc
  have hmap : ((cleanList t).map lowerChar).map subChar = cleanList t := by
    rw [map_fixed_of_mem _ lowerChar (fun c hc => lowerChar_fixed c (hgood c hc))]
    exact map_fixed_of_mem _ subChar (fun c hc => subChar_fixed c (hgood c hc))
  have hrep : cleanList t = joinSp (wordsAux [] ((t.map lowerChar).map subChar)) := by
    unfold cleanList
    exact collapse_words _
  have hW : ∀ w ∈ wordsAux [] ((t.map lowerChar).map subChar),
      w ≠ [] ∧ (∀ c ∈ w, c ≠ ' ') :=
    fun w hw => ⟨wordsAux_mem_ne_nil _ [] w hw,
      wordsAux_mem_no_space _ [] w (by simp) hw⟩
  rw [show cleanList (cleanList t)
      = stripSp (collapseAux false (((cleanList t).map lowerChar).map subChar)) from rfl,
    hmap, collapse_words, hrep, wordsAux_joinSp _ hW]

/-- C8: the normalizer is idempotent: normalizing an already-normalized text
changes nothing. -/
theorem clean_idempotent : ∀ s : String, clean (clean s) = clean s := by
  intro s
  exact congrArg String.mk (cleanList_idem s.data)
